import Mathlib

/-!
Bloom filter and per-bit peer index.

A shallow embedding of `bloomfilter/bloom.go` and
`bloomfilter/search/bloom_search.go`.

Conventions of the embedding.

* Go `uint` values are natural numbers; a 32-bit hash sum is reduced
  `% 2 ^ 32` where the source converts it.
* A Go run-time panic (index out of range, integer division by zero, a method
  call through a nil interface) is the result `none`.
* A method that mutates its receiver returns the receiver's new value.
* `float64` arithmetic of the sizing function is read over the reals.
-/

namespace Bloomfilter

/-- A byte string, the Go type `[]byte`; each element is a byte value. -/
abbrev Bytes := List Nat

/-! ## Bit vector -/

/-- Modelled from the spec: the `Bitset` type of package bloomfilter and its
methods (`NewWFBitset`, `Add`, `Contains`, `IsSet`, `Compare`), which `bloom.go`
uses and does not declare.  Section 3 describes it as a fixed-size array of
exactly `m` addressable bits, created with all bits clear. -/
structure Bitset where
  bits : List Bool
deriving DecidableEq, Repr

/-- Modelled from the spec: `NewWFBitset`, a vector created with length `m`
and all bits clear (section 3, Bit Vector lifecycle). -/
def NewWFBitset (maxSize : Nat) : Bitset :=
  ⟨List.replicate maxSize false⟩

/-- Modelled from the spec: `Bitset.Add`, the operation `set(i)` of section 4.1,
which marks bit `i` under the precondition `0 ≤ i < m`; an index outside the
vector is the BoundsError of section 7. -/
def Bitset.Add (b : Bitset) (i : Nat) : Option Bitset :=
  if i < b.bits.length then some ⟨b.bits.set i true⟩ else none

/-- Modelled from the spec: `Bitset.Contains`, the operation `test(i)` of
section 4.1, which tells whether bit `i` is set under the precondition
`0 ≤ i < m`; an index outside the vector is the BoundsError of section 7. -/
def Bitset.Contains (b : Bitset) (i : Nat) : Option Bool :=
  if i < b.bits.length then some (b.bits.getD i false) else none

/-- Modelled from the spec: `Bitset.IsSet`, the query `is_set(i)` of the peer
snapshot contract (section 6).  Section 4.6 has the index builder query the
positions `0 … m` inclusive and obtain an empty list at the sentinel position
`m`, so the query is total and reads a position outside the vector as clear. -/
def Bitset.IsSet (b : Bitset) (i : Nat) : Bool :=
  b.bits.getD i false

/-- Modelled from the spec: `Bitset.Compare`, the operation `equals(other)` of
section 4.1: true iff both vectors have identical length and identical bit
patterns. -/
def Bitset.Compare (b other : Bitset) : Bool :=
  decide (b.bits = other.bits)

/-! ## Hash fan-out -/

/-- The three hash libraries `calculateHash` calls (`hash/fnv` `New32`,
`murmur3.New32`, `jenkins.New`), each as the function from the bytes written
to the sum read back.  They live outside the repository and are a parameter
of the development. -/
structure Hashers where
  fnv32 : Bytes → Nat
  murmur32 : Bytes → Nat
  jenkins32 : Bytes → Nat

/-- The sum of `hash/fnv` `New32` after writing `key`: FNV-1, 32 bit (multiply
by the prime, then xor the byte). -/
def fnv1 (key : Bytes) : Nat :=
  key.foldl (fun hash c => ((hash * 16777619) % 2 ^ 32) ^^^ c) 2166136261

/-- Rotation of a 32-bit word to the left. -/
def rotl32 (x r : Nat) : Nat :=
  ((x <<< r) % 2 ^ 32) ||| (x >>> (32 - r))

/-- The scrambling of one block in MurmurHash3, 32 bit. -/
def murmurK (k1 : Nat) : Nat :=
  (rotl32 ((k1 * 0xcc9e2d51) % 2 ^ 32) 15 * 0x1b873593) % 2 ^ 32

/-- The body and tail of MurmurHash3, 32 bit, over little-endian blocks of four
bytes. -/
def murmurBody : Nat → Bytes → Nat
  | h1, b0 :: b1 :: b2 :: b3 :: rest =>
    let k1 := b0 ||| (b1 <<< 8) ||| (b2 <<< 16) ||| (b3 <<< 24)
    murmurBody ((rotl32 (h1 ^^^ murmurK k1) 13 * 5 + 0xe6546b64) % 2 ^ 32) rest
  | h1, [b0, b1, b2] => h1 ^^^ murmurK (b0 ||| (b1 <<< 8) ||| (b2 <<< 16))
  | h1, [b0, b1] => h1 ^^^ murmurK (b0 ||| (b1 <<< 8))
  | h1, [b0] => h1 ^^^ murmurK b0
  | h1, [] => h1

/-- The finalizer of MurmurHash3, 32 bit. -/
def fmix32 (h : Nat) : Nat :=
  let h := h ^^^ (h >>> 16)
  let h := (h * 0x85ebca6b) % 2 ^ 32
  let h := h ^^^ (h >>> 13)
  let h := (h * 0xc2b2ae35) % 2 ^ 32
  h ^^^ (h >>> 16)

/-- The sum of `murmur3.New32` after writing `key`: MurmurHash3, 32 bit, seed
0. -/
def murmur3 (key : Bytes) : Nat :=
  fmix32 (murmurBody 0 key ^^^ (key.length % 2 ^ 32))

/-- The sum of `jenkins.New` after writing `key`: the Jenkins one-at-a-time
hash. -/
def jenkinsOAT (key : Bytes) : Nat :=
  let hash := key.foldl (fun hash b =>
    let hash := (hash + b) % 2 ^ 32
    let hash := (hash + (hash <<< 10)) % 2 ^ 32
    hash ^^^ (hash >>> 6)) 0
  let hash := (hash + (hash <<< 3)) % 2 ^ 32
  let hash := hash ^^^ (hash >>> 11)
  (hash + (hash <<< 15)) % 2 ^ 32

/-- The hash libraries as published, the instance the examples run on. -/
def goHashers : Hashers := ⟨fnv1, murmur3, jenkinsOAT⟩

/-- The function `calculateHash`: offset 1 is murmur3, offset 2 is jenkins and
every other offset takes the default branch, FNV.  `Sum32` is a 32-bit
value converted to `uint`. -/
def calculateHash (H : Hashers) (key : Bytes) (offSet : Int) : Nat :=
  if offSet = 1 then H.murmur32 key % 2 ^ 32
  else if offSet = 2 then H.jenkins32 key % 2 ^ 32
  else H.fnv32 key % 2 ^ 32

/-! ## The filter -/

/-- The struct `SimpleBloomFilter`.  The `HashCache` field is allocated by
`NewSimpleBF` and then neither read nor written by any function of the file,
so it carries no state here. -/
structure SimpleBloomFilter where
  maxSize : Nat
  HashFunctions : Nat
  filter : Bitset
deriving DecidableEq, Repr

/-- The constructor `NewSimpleBF`. -/
def NewSimpleBF (maxSize hashFuns : Nat) : SimpleBloomFilter :=
  ⟨maxSize, hashFuns, NewWFBitset maxSize⟩

/-- The getter `GetMaxSize`. -/
def SimpleBloomFilter.GetMaxSize (bf : SimpleBloomFilter) : Nat :=
  bf.maxSize

/-- The getter `GetStorage`. -/
def SimpleBloomFilter.GetStorage (bf : SimpleBloomFilter) : Bitset :=
  bf.filter

/-- The loop of `HashKey` over the positions of `hashes`: each iteration
reduces a hash modulo the max size, which panics when the max size is 0. -/
def hashLoop (H : Hashers) (bf : SimpleBloomFilter) (key : Bytes) :
    List Nat → Option (List Nat)
  | [] => some []
  | index :: rest =>
    if bf.GetMaxSize = 0 then none
    else
      match hashLoop H bf key rest with
      | none => none
      | some hashes => some (calculateHash H key (index : Int) % bf.GetMaxSize :: hashes)

/-- The method `HashKey`: one index per hash function, positions
`0 … HashFunctions - 1`. -/
def SimpleBloomFilter.HashKey (H : Hashers) (bf : SimpleBloomFilter) (key : Bytes) :
    Option (List Nat) :=
  hashLoop H bf key (List.range bf.HashFunctions)

/-- The loop of `HasKey`: continue while the element is contained, answer
false at the first element that is not. -/
def containsLoop (filter : Bitset) : List Nat → Option Bool
  | [] => some true
  | element :: rest =>
    match filter.Contains element with
    | none => none
    | some true => containsLoop filter rest
    | some false => some false

/-- The method `HasKey`; the nil slice returned with `false` is the empty
list. -/
def SimpleBloomFilter.HasKey (H : Hashers) (bf : SimpleBloomFilter) (key : Bytes) :
    Option (Bool × List Nat) :=
  match bf.HashKey H key with
  | none => none
  | some hashIndexes =>
    match containsLoop bf.filter hashIndexes with
    | none => none
    | some true => some (true, hashIndexes)
    | some false => some (false, [])

/-- The loop of `AddKey`: add every index to the bit vector, in order. -/
def addLoop : Bitset → List Nat → Option Bitset
  | filter, [] => some filter
  | filter, index :: rest =>
    match filter.Add index with
    | none => none
    | some filter1 => addLoop filter1 rest

/-- The method `AddKey`: the filter after the call, the flag and the index
vector returned. -/
def SimpleBloomFilter.AddKey (H : Hashers) (bf : SimpleBloomFilter) (key : Bytes) :
    Option (SimpleBloomFilter × Bool × List Nat) :=
  match bf.HasKey H key with
  | none => none
  | some (hasKey, found) =>
    match (if !hasKey then bf.HashKey H key else some found) with
    | none => none
    | some hashIndexes =>
      match addLoop bf.filter hashIndexes with
      | none => none
      | some filter1 => some (⟨bf.maxSize, bf.HashFunctions, filter1⟩, true, hashIndexes)

/-- The method `Compare`, on a remote that is a `*SimpleBloomFilter`. -/
def SimpleBloomFilter.Compare (bf remote : SimpleBloomFilter) : Bool :=
  bf.filter.Compare remote.GetStorage

/-- A filter whose bit vector has exactly `maxSize` addressable bits, as every
filter built by `NewSimpleBF` has. -/
def SimpleBloomFilter.WellFormed (bf : SimpleBloomFilter) : Prop :=
  bf.filter.bits.length = bf.maxSize

instance (bf : SimpleBloomFilter) : Decidable bf.WellFormed := by
  unfold SimpleBloomFilter.WellFormed; infer_instance

/-- A run of `AddKey` calls on one filter, in the order of the keys. -/
def AddKeys (H : Hashers) : SimpleBloomFilter → List Bytes → Option SimpleBloomFilter
  | bf, [] => some bf
  | bf, key :: rest =>
    match bf.AddKey H key with
    | none => none
    | some (bf1, _, _) => AddKeys H bf1 rest

/-- The index vector of a key: position `index` holds hash family `index`
reduced modulo the max size. -/
def indexVector (H : Hashers) (bf : SimpleBloomFilter) (key : Bytes) : List Nat :=
  (List.range bf.HashFunctions).map
    (fun (index : Nat) => calculateHash H key (index : Int) % bf.GetMaxSize)

/-- A filter of max size 8 and three hash functions with bits 0, 2 and 4 set:
the state of `NewSimpleBF(8, 3)` after adding the key `hi`. -/
def filterHi : SimpleBloomFilter :=
  ⟨8, 3, ⟨[true, false, true, false, true, false, false, false]⟩⟩

/-- A filter of max size 8 and three hash functions with only bit 4 set. -/
def filterFour : SimpleBloomFilter :=
  ⟨8, 3, ⟨[false, false, false, false, true, false, false, false]⟩⟩

/-- The number of set bits of a bit vector. -/
def Bitset.setCount (b : Bitset) : Nat :=
  b.bits.count true

/-- One call on a filter, with its key: `AddKey` or `HasKey`. -/
inductive Call where
  | add (key : Bytes)
  | has (key : Bytes)
deriving DecidableEq, Repr

/-- A run of `AddKey` and `HasKey` calls on one filter, in order.  The body of
`HasKey` reads the filter through `HashKey` and `Contains` and assigns nothing,
so the filter after a `HasKey` that returns is the filter before it. -/
def runCalls (H : Hashers) : SimpleBloomFilter → List Call → Option SimpleBloomFilter
  | bf, [] => some bf
  | bf, Call.add key :: rest =>
    match bf.AddKey H key with
    | none => none
    | some (bf1, _, _) => runCalls H bf1 rest
  | bf, Call.has key :: rest =>
    match bf.HasKey H key with
    | none => none
    | some _ => runCalls H bf rest

/-- The keys a run passes to `AddKey`, in order. -/
def addedKeys : List Call → List Bytes
  | [] => []
  | Call.add key :: rest => key :: addedKeys rest
  | Call.has _ :: rest => addedKeys rest

/-! ## Sizing, serialisation -/

/-- The function `estimateBounds`, with its `float64` arithmetic read over the
reals: `math.Log` is the natural logarithm, `math.Pow(x, 2)` the square and the
conversion `uint(x)` of a non-negative value drops the fraction.  The reading
is exact arithmetic without an upper bound on `uint`: where a real value lies
within rounding distance of a whole number, the `float64` evaluation of the
source can fall on the other side of it and return a count that differs by
one. -/
noncomputable def estimateBounds (items : Nat) (probability : ℝ) : Nat × Nat :=
  let n := items
  let m : ℝ := (-1 * (n : ℝ) * Real.log probability) / (Real.log 2) ^ 2
  let k : Nat := Nat.floor ((m / (n : ℝ)) * Real.log 2)
  (Nat.floor m, k)

/-- The bit count as section 4.5 of the spec words it: the ceiling of
`−n · ln p / (ln 2)²`. -/
noncomputable def specBitCount (n : Nat) (p : ℝ) : Nat :=
  Nat.ceil (-(n : ℝ) * Real.log p / (Real.log 2) ^ 2)

/-- The constructor `NewByFailRate`. -/
noncomputable def NewByFailRate (items : Nat) (probability : ℝ) : SimpleBloomFilter :=
  NewSimpleBF (estimateBounds items probability).1 (estimateBounds items probability).2

/-- The textual layer of package bloomfilter that `Serialize` and `Deserialize`
call and `bloom.go` does not define: the methods `ToString` and `FromString` of
the bit vector and the run-length functions `Encode` and `Decode`.  It is a
parameter of the two functions. -/
structure TextLayer where
  ToString : Bitset → String
  FromString : Bitset → String → Bitset
  Encode : String → String
  Decode : String → String

/-- A text layer that writes the empty text and loads nothing, for the
places where only the sizing done by `Deserialize` is looked at. -/
def blankText : TextLayer :=
  ⟨fun _ => "", fun b _ => b, fun s => s, fun s => s⟩

/-- The method `Serialize`. -/
def SimpleBloomFilter.Serialize (T : TextLayer) (bf : SimpleBloomFilter) : String :=
  T.Encode (T.ToString bf.filter)

/-- The double-quote character of the format string in `Deserialize`. -/
def dquote : String := String.singleton (Char.ofNat 34)

/-- The function `Deserialize`: the filter is sized by
`NewByFailRate(maxSize, 0.01)`, the decoded text is wrapped as
double-quote, text, `=`, double-quote and loaded into the bit vector.  The
second component is the error, which is always nil. -/
noncomputable def Deserialize (T : TextLayer) (inputString : String) (maxSize : Nat) :
    SimpleBloomFilter × Option String :=
  let bf := NewByFailRate maxSize 0.01
  let sz := dquote ++ T.Decode inputString ++ "=" ++ dquote
  (⟨bf.maxSize, bf.HashFunctions, T.FromString bf.filter sz⟩, none)

end Bloomfilter

/-! ## Per-bit peer index -/

namespace Bfsearch

open Bloomfilter

/-- Modelled from the spec: the record `dht.Peer`, declared in package dht.
Section 6 gives a snapshot entry a stable identifier and a filter; the source
reads the field `BloomFilter`, which may be nil. -/
structure Peer where
  id : Nat
  BloomFilter : Option SimpleBloomFilter
deriving DecidableEq, Repr

/-- Modelled from the spec: the record `dht.PeerList`, an ordered list of
entries each of which is either absent (nil) or a peer (section 6). -/
structure PeerList where
  Peers : List (Option Peer)
deriving DecidableEq, Repr

/-- The struct `bloomfilterNode`. -/
structure bloomfilterNode where
  bitIndex : Nat
  refs : List Peer
deriving DecidableEq, Repr

/-- The struct `Search`; `nodes` is a slice of pointers, each possibly nil. -/
structure Search where
  nodes : List (Option bloomfilterNode)
deriving DecidableEq, Repr

/-- The inner loop of `calculateSearchArray` for bit `i`: every present peer
whose storage has bit `i` set is appended to `nodes`.  A present peer without
a filter makes `bf.GetStorage()` a call through a nil interface. -/
def peerLoop (i : Nat) : List (Option Peer) → List Peer → Option (List Peer)
  | [], nodes => some nodes
  | none :: rest, nodes => peerLoop i rest nodes
  | some peer :: rest, nodes =>
    match peer.BloomFilter with
    | none => none
    | some bf =>
      if bf.GetStorage.IsSet i then peerLoop i rest (nodes ++ [peer])
      else peerLoop i rest nodes

/-- The outer loop of `calculateSearchArray` over the bit positions: one node
per position is appended to `bfNodes`. -/
def bitLoop (peers : List (Option Peer)) :
    List Nat → List (Option bloomfilterNode) → Option (List (Option bloomfilterNode))
  | [], bfNodes => some bfNodes
  | i :: rest, bfNodes =>
    match peerLoop i peers [] with
    | none => none
    | some nodes => bitLoop peers rest (bfNodes ++ [some ⟨i, nodes⟩])

/-- The function `calculateSearchArray`.  The guard reads `Peers[0]` before it
tests the length, so an empty list panics at the index expression.  The bit
positions run over `0 … bfSize` inclusive. -/
def calculateSearchArray (peerList : PeerList) : Option Search :=
  match peerList.Peers[0]? with
  | none => none
  | some first =>
    if first.isNone || peerList.Peers.length == 0 then some ⟨[]⟩
    else
      let bfSize :=
        match first.bind Peer.BloomFilter with
        | some peerBF => peerBF.GetMaxSize
        | none => 0
      match bitLoop peerList.Peers (List.range (bfSize + 1)) [] with
      | none => none
      | some bfNodes => some ⟨bfNodes⟩

/-- The function `NewSearch`. -/
def NewSearch (peerList : PeerList) : Option Search :=
  calculateSearchArray peerList

/-- The method `Get`: the guard lets `bitIndex = len(nodes)` through to the
index expression `b.nodes[bitIndex]`. -/
def Search.Get (b : Search) (bitIndex : Nat) : Option (List Peer) :=
  if bitIndex > b.nodes.length then some []
  else
    match b.nodes[bitIndex]? with
    | none => none
    | some foundNode =>
      match foundNode with
      | some node => some node.refs
      | none => some []

/-- The method `Recalculate`, returning the Search its caller holds after the
call.  The body builds a fresh Search and assigns it to the receiver variable
`b`, the method's own copy of the pointer; the Search the caller's pointer
refers to is not written. -/
def Search.Recalculate (b : Search) (peerList : PeerList) : Option Search :=
  match calculateSearchArray peerList with
  | none => none
  | some _ => some b

/-- The present peers of a snapshot whose filter storage has bit `i` set, in
snapshot order: what the spec calls the subset of the snapshot with bit `i`. -/
def peersWithBit (peers : List (Option Peer)) (i : Nat) : List Peer :=
  (peers.filterMap id).filter
    (fun peer =>
      match peer.BloomFilter with
      | some bf => bf.GetStorage.IsSet i
      | none => false)

/-- A peer whose filter of max size 2 has bit 0 set. -/
def peerA : Peer := ⟨1, some ⟨2, 1, ⟨[true, false]⟩⟩⟩

/-- A peer whose filter of max size 2 has no bit set. -/
def peerB : Peer := ⟨2, some ⟨2, 1, ⟨[false, false]⟩⟩⟩

/-- A peer whose filter of max size 2 has bits 0 and 1 set. -/
def peerC : Peer := ⟨3, some ⟨2, 1, ⟨[true, true]⟩⟩⟩

/-- A present peer that carries no filter: its `BloomFilter` field is nil. -/
def peerNoFilter : Peer := ⟨4, none⟩

end Bfsearch

namespace Bloomfilter

theorem hashLoop_eq_map (H : Hashers) (bf : SimpleBloomFilter) (key : Bytes)
    (hm : 1 ≤ bf.GetMaxSize) (l : List Nat) :
    hashLoop H bf key l
      = some (l.map (fun (index : Nat) =>
          calculateHash H key (index : Int) % bf.GetMaxSize)) := by
  induction l with
  | nil => rfl
  | cons index rest ih =>
    have h0 : bf.GetMaxSize ≠ 0 := by omega
    simp [hashLoop, ih, h0]

theorem Contains_eq_IsSet (b : Bitset) (i : Nat) (hi : i < b.bits.length) :
    b.Contains i = some (b.IsSet i) := by
  simp [Bitset.Contains, Bitset.IsSet, hi]

theorem containsLoop_eq_all (b : Bitset) (idx : List Nat)
    (hr : ∀ i ∈ idx, i < b.bits.length) :
    containsLoop b idx = some (idx.all (fun i => b.IsSet i)) := by
  induction idx with
  | nil => rfl
  | cons i rest ih =>
    have hi : i < b.bits.length := hr i (List.mem_cons_self _ _)
    have ih1 := ih (fun j hj => hr j (List.mem_cons_of_mem _ hj))
    rw [containsLoop, Contains_eq_IsSet b i hi]
    cases hb : b.IsSet i <;> simp [ih1, hb]

theorem addLoop_spec (idx : List Nat) : ∀ (b : Bitset),
    (∀ i ∈ idx, i < b.bits.length) →
    ∃ b1, addLoop b idx = some b1 ∧ b1.bits.length = b.bits.length ∧
      ∀ j, b1.IsSet j = (b.IsSet j || (decide (j ∈ idx) && decide (j < b.bits.length))) := by
  induction idx with
  | nil => intro b _; exact ⟨b, rfl, rfl, by intro j; simp⟩
  | cons i rest ih =>
    intro b hr
    have hi : i < b.bits.length := hr i (List.mem_cons_self _ _)
    obtain ⟨b1, h1, h2, h3⟩ := ih ⟨b.bits.set i true⟩
      (by intro j hj; simpa using hr j (List.mem_cons_of_mem _ hj))
    refine ⟨b1, by simp [addLoop, Bitset.Add, hi, h1], by simpa using h2, ?_⟩
    intro j
    rw [h3 j]
    simp only [Bitset.IsSet, List.getD_eq_getElem?_getD, List.getElem?_set, List.length_set]
    by_cases hij : i = j
    · subst hij; simp [hi]
    · have : ¬ j = i := fun h => hij h.symm
      simp [hij, this]

theorem HashKey_eq (H : Hashers) (bf : SimpleBloomFilter) (key : Bytes)
    (hm : 1 ≤ bf.GetMaxSize) : bf.HashKey H key = some (indexVector H bf key) :=
  hashLoop_eq_map H bf key hm _

theorem indexVector_lt (H : Hashers) (bf : SimpleBloomFilter) (key : Bytes)
    (hm : 1 ≤ bf.GetMaxSize) (hwf : bf.WellFormed) :
    ∀ i ∈ indexVector H bf key, i < bf.filter.bits.length := by
  intro i hi
  rw [hwf]
  simp only [indexVector, List.mem_map] at hi
  obtain ⟨a, _, rfl⟩ := hi
  exact Nat.mod_lt _ hm

theorem HasKey_eq (H : Hashers) (bf : SimpleBloomFilter) (key : Bytes)
    (hm : 1 ≤ bf.GetMaxSize) (hwf : bf.WellFormed) :
    bf.HasKey H key =
      some (if (indexVector H bf key).all (fun i => bf.filter.IsSet i)
        then (true, indexVector H bf key) else (false, [])) := by
  rw [SimpleBloomFilter.HasKey, HashKey_eq H bf key hm]
  simp only [containsLoop_eq_all _ _ (indexVector_lt H bf key hm hwf)]
  cases (indexVector H bf key).all (fun i => bf.filter.IsSet i) <;> simp

theorem AddKey_eq (H : Hashers) (bf : SimpleBloomFilter) (key : Bytes)
    (hm : 1 ≤ bf.GetMaxSize) (hwf : bf.WellFormed) :
    ∃ b1, addLoop bf.filter (indexVector H bf key) = some b1 ∧
      b1.bits.length = bf.filter.bits.length ∧
      (∀ j, b1.IsSet j = (bf.filter.IsSet j ||
        (decide (j ∈ indexVector H bf key) && decide (j < bf.filter.bits.length)))) ∧
      bf.AddKey H key
        = some (⟨bf.maxSize, bf.HashFunctions, b1⟩, true, indexVector H bf key) := by
  obtain ⟨b1, h1, h2, h3⟩ := addLoop_spec (indexVector H bf key) bf.filter
    (indexVector_lt H bf key hm hwf)
  refine ⟨b1, h1, h2, h3, ?_⟩
  rw [SimpleBloomFilter.AddKey, HasKey_eq H bf key hm hwf]
  cases (indexVector H bf key).all (fun i => bf.filter.IsSet i) <;>
    simp [HashKey_eq H bf key hm, h1]

/-- C1: no false negatives.  On a filter with max size at least 1 whose bit
vector has max-size bits, `AddKey` returns and the `HasKey` call that follows
it on the same key returns true, with the index vector of the key. -/
theorem AddKey_then_HasKey (H : Hashers) (bf : SimpleBloomFilter) (key : Bytes)
    (hm : 1 ≤ bf.GetMaxSize) (hwf : bf.WellFormed) :
    ∃ bf1 idx, bf.AddKey H key = some (bf1, true, idx) ∧
      bf1.HasKey H key = some (true, idx) := by
  obtain ⟨b1, _, h2, h3, h4⟩ := AddKey_eq H bf key hm hwf
  refine ⟨⟨bf.maxSize, bf.HashFunctions, b1⟩, indexVector H bf key, h4, ?_⟩
  have hm1 : 1 ≤ (SimpleBloomFilter.mk bf.maxSize bf.HashFunctions b1).GetMaxSize := hm
  have hwf1 : (SimpleBloomFilter.mk bf.maxSize bf.HashFunctions b1).WellFormed := by
    show b1.bits.length = bf.maxSize
    rw [h2]; exact hwf
  rw [HasKey_eq H _ key hm1 hwf1]
  have hiv : indexVector H ⟨bf.maxSize, bf.HashFunctions, b1⟩ key = indexVector H bf key := rfl
  rw [hiv]
  have hall : (indexVector H bf key).all (fun i => b1.IsSet i) = true := by
    rw [List.all_eq_true]
    intro j hj
    rw [h3 j]
    simp [hj, indexVector_lt H bf key hm hwf j hj]
  simp [hall]

theorem set_true_of_getD (l : List Bool) :
    ∀ i, l.getD i false = true → l.set i true = l := by
  induction l with
  | nil => intro i _; rfl
  | cons a rest ih =>
    intro i h
    cases i with
    | zero =>
      have : a = true := by simpa using h
      simp [this]
    | succ n =>
      have : rest.getD n false = true := by simpa using h
      simp [ih n this]

theorem Add_of_IsSet (b : Bitset) (i : Nat) (hi : i < b.bits.length)
    (hs : b.IsSet i = true) : b.Add i = some b := by
  have : b.bits.set i true = b.bits := set_true_of_getD b.bits i hs
  simp [Bitset.Add, hi, this]

theorem addLoop_of_all_set (b : Bitset) (idx : List Nat)
    (hr : ∀ i ∈ idx, i < b.bits.length) (hs : ∀ i ∈ idx, b.IsSet i = true) :
    addLoop b idx = some b := by
  induction idx with
  | nil => rfl
  | cons i rest ih =>
    rw [addLoop, Add_of_IsSet b i (hr i (List.mem_cons_self _ _))
      (hs i (List.mem_cons_self _ _))]
    exact ih (fun j hj => hr j (List.mem_cons_of_mem _ hj))
      (fun j hj => hs j (List.mem_cons_of_mem _ hj))

/-- The effect of one `AddKey` on a well-formed filter with max size at least
1: the parameters are kept, the bit vector keeps its length and every bit that
was set stays set. -/
theorem AddKey_preserves (H : Hashers) (bf : SimpleBloomFilter) (key : Bytes)
    (hm : 1 ≤ bf.GetMaxSize) (hwf : bf.WellFormed) :
    ∃ bf1 idx, bf.AddKey H key = some (bf1, true, idx) ∧
      bf1.maxSize = bf.maxSize ∧ bf1.HashFunctions = bf.HashFunctions ∧
      bf1.WellFormed ∧ ∀ j, bf.filter.IsSet j = true → bf1.filter.IsSet j = true := by
  obtain ⟨b1, _, h2, h3, h4⟩ := AddKey_eq H bf key hm hwf
  refine ⟨⟨bf.maxSize, bf.HashFunctions, b1⟩, indexVector H bf key, h4, rfl, rfl, ?_, ?_⟩
  · show b1.bits.length = bf.maxSize
    rw [h2]; exact hwf
  · intro j hj
    show b1.IsSet j = true
    rw [h3 j, hj]; rfl

/-- C8: test monotonicity.  If `HasKey` returns true for a key, it still
returns true, with the same index vector, after any finite run of `AddKey`
calls on the filter, and the run itself returns. -/
theorem HasKey_after_AddKeys (H : Hashers) (keys : List Bytes) :
    ∀ (bf : SimpleBloomFilter) (key : Bytes) (idx : List Nat),
      1 ≤ bf.GetMaxSize → bf.WellFormed →
      bf.HasKey H key = some (true, idx) →
      ∃ bf1, AddKeys H bf keys = some bf1 ∧ bf1.HasKey H key = some (true, idx) := by
  induction keys with
  | nil => intro bf key idx _ _ h; exact ⟨bf, rfl, h⟩
  | cons k rest ih =>
    intro bf key idx hm hwf h
    obtain ⟨bf1, idx1, ha, hms, hk, hwf1, hmono⟩ := AddKey_preserves H bf k hm hwf
    have hm1 : 1 ≤ bf1.GetMaxSize := by
      show 1 ≤ bf1.maxSize
      rw [hms]; exact hm
    have hiv : indexVector H bf1 key = indexVector H bf key := by
      simp [indexVector, SimpleBloomFilter.GetMaxSize, hms, hk]
    have h1 : bf1.HasKey H key = some (true, idx) := by
      rw [HasKey_eq H bf key hm hwf] at h
      rw [HasKey_eq H bf1 key hm1 hwf1, hiv]
      by_cases hall : (indexVector H bf key).all (fun i => bf.filter.IsSet i) = true
      · have hall1 : (indexVector H bf key).all (fun i => bf1.filter.IsSet i) = true := by
          rw [List.all_eq_true] at hall ⊢
          intro j hj
          exact hmono j (hall j hj)
        rw [if_pos hall] at h
        rw [if_pos hall1]
        exact h
      · rw [if_neg hall] at h
        simp at h
    obtain ⟨bf2, hr, h2⟩ := ih bf1 key idx hm1 hwf1 h1
    exact ⟨bf2, by simp [AddKeys, ha, hr], h2⟩

/-- C9: `AddKey` is idempotent.  The second call on the same key returns the
same index vector as the first, which is `HashKey` of the key, and leaves the
filter, bit vector included, exactly as the first call left it. -/
theorem AddKey_idempotent (H : Hashers) (bf : SimpleBloomFilter) (key : Bytes)
    (hm : 1 ≤ bf.GetMaxSize) (hwf : bf.WellFormed) :
    ∃ bf1 idx, bf.AddKey H key = some (bf1, true, idx) ∧
      bf1.AddKey H key = some (bf1, true, idx) ∧
      bf.HashKey H key = some idx := by
  obtain ⟨b1, _, h2, h3, h4⟩ := AddKey_eq H bf key hm hwf
  refine ⟨⟨bf.maxSize, bf.HashFunctions, b1⟩, indexVector H bf key, h4, ?_,
    HashKey_eq H bf key hm⟩
  have hm1 : 1 ≤ (SimpleBloomFilter.mk bf.maxSize bf.HashFunctions b1).GetMaxSize := hm
  have hwf1 : (SimpleBloomFilter.mk bf.maxSize bf.HashFunctions b1).WellFormed := by
    show b1.bits.length = bf.maxSize
    rw [h2]; exact hwf
  have hr : ∀ i ∈ indexVector H bf key, i < b1.bits.length := by
    intro i hi
    rw [h2]; exact indexVector_lt H bf key hm hwf i hi
  have hs : ∀ i ∈ indexVector H bf key, b1.IsSet i = true := by
    intro j hj
    rw [h3 j]
    simp [hj, indexVector_lt H bf key hm hwf j hj]
  obtain ⟨b2, g1, _, _, g4⟩ := AddKey_eq H _ key hm1 hwf1
  have hiv : indexVector H ⟨bf.maxSize, bf.HashFunctions, b1⟩ key = indexVector H bf key := rfl
  rw [hiv] at g1 g4
  have hb : b2 = b1 := by
    have := addLoop_of_all_set b1 (indexVector H bf key) hr hs
    have g1' : addLoop b1 (indexVector H bf key) = some b2 := g1
    rw [this] at g1'
    exact (Option.some.inj g1').symm
  rw [g4, hb]

/-- C10: `HasKey` decides by the bits.  With `idx` the index vector `HashKey`
returns, `HasKey` returns true together with `idx` when every index of `idx`
is contained in the bit vector, and false with no indices otherwise. -/
theorem HasKey_decides_by_bits (H : Hashers) (bf : SimpleBloomFilter) (key : Bytes)
    (hm : 1 ≤ bf.GetMaxSize) (hwf : bf.WellFormed) :
    ∃ idx, bf.HashKey H key = some idx ∧
      ((∀ i ∈ idx, bf.filter.Contains i = some true) →
        bf.HasKey H key = some (true, idx)) ∧
      (¬ (∀ i ∈ idx, bf.filter.Contains i = some true) →
        bf.HasKey H key = some (false, [])) ∧
      ((∃ r, bf.HasKey H key = some (true, r)) ↔
        ∀ i ∈ idx, bf.filter.Contains i = some true) := by
  have hlt := indexVector_lt H bf key hm hwf
  have hiff : (indexVector H bf key).all (fun i => bf.filter.IsSet i) = true ↔
      ∀ i ∈ indexVector H bf key, bf.filter.Contains i = some true := by
    rw [List.all_eq_true]
    constructor
    · intro h i hi
      rw [Contains_eq_IsSet _ i (hlt i hi), h i hi]
    · intro h i hi
      have := h i hi
      rw [Contains_eq_IsSet _ i (hlt i hi)] at this
      exact Option.some.inj this
  refine ⟨indexVector H bf key, HashKey_eq H bf key hm, ?_, ?_, ?_⟩
  · intro h
    rw [HasKey_eq H bf key hm hwf, if_pos (hiff.mpr h)]
  · intro h
    rw [HasKey_eq H bf key hm hwf, if_neg (fun hc => h (hiff.mp hc))]
  · rw [HasKey_eq H bf key hm hwf]
    constructor
    · rintro ⟨r, hr⟩
      by_cases hall : (indexVector H bf key).all (fun i => bf.filter.IsSet i) = true
      · exact hiff.mp hall
      · rw [if_neg hall] at hr
        simp at hr
    · intro h
      exact ⟨indexVector H bf key, by rw [if_pos (hiff.mpr h)]⟩

end Bloomfilter

namespace Bfsearch

open Bloomfilter

theorem peerLoop_eq (i : Nat) (peers : List (Option Peer))
    (hbf : ∀ p, some p ∈ peers → ∃ bf, p.BloomFilter = some bf) :
    ∀ nodes, peerLoop i peers nodes = some (nodes ++ peersWithBit peers i) := by
  induction peers with
  | nil => intro nodes; simp [peerLoop, peersWithBit]
  | cons entry rest ih =>
    have ih1 := ih (fun p hp => hbf p (List.mem_cons_of_mem _ hp))
    intro nodes
    cases entry with
    | none => simpa [peerLoop, peersWithBit] using ih1 nodes
    | some peer =>
      obtain ⟨bf, hpeer⟩ := hbf peer (List.mem_cons_self _ _)
      by_cases hset : bf.GetStorage.IsSet i = true
      · simp [peerLoop, peersWithBit, hpeer, hset, ih1, List.filter_cons]
      · simp [peerLoop, peersWithBit, hpeer, hset, ih1, List.filter_cons]

theorem bitLoop_eq (peers : List (Option Peer))
    (hbf : ∀ p, some p ∈ peers → ∃ bf, p.BloomFilter = some bf) (positions : List Nat) :
    ∀ bfNodes, bitLoop peers positions bfNodes
      = some (bfNodes ++ positions.map
          (fun j => some (bloomfilterNode.mk j (peersWithBit peers j)))) := by
  induction positions with
  | nil => intro bfNodes; simp [bitLoop]
  | cons j rest ih =>
    intro bfNodes
    simp [bitLoop, peerLoop_eq j peers hbf, ih]

/-- The Search built from a snapshot whose first entry is a peer carrying a
filter of max size `m` and whose present peers all carry a filter: one node
for each position `0 … m`, holding that position and the peers with that bit. -/
theorem calculateSearchArray_eq (first : Peer) (rest : List (Option Peer))
    (bf0 : SimpleBloomFilter) (h0 : first.BloomFilter = some bf0)
    (hbf : ∀ p, some p ∈ some first :: rest → ∃ bf, p.BloomFilter = some bf) :
    calculateSearchArray ⟨some first :: rest⟩
      = some ⟨(List.range (bf0.GetMaxSize + 1)).map
          (fun j => some (bloomfilterNode.mk j (peersWithBit (some first :: rest) j)))⟩ := by
  simp [calculateSearchArray, h0, bitLoop_eq _ hbf]

end Bfsearch

namespace Bloomfilter

theorem log_hundredth : Real.log (0.01 : ℝ) = -(2 * Real.log 10) := by
  have h : (0.01 : ℝ) = ((10 : ℝ) ^ 2)⁻¹ := by norm_num
  rw [h, Real.log_inv, Real.log_pow]
  push_cast
  ring

theorem log_ten_bounds :
    13 * Real.log 2 < 4 * Real.log 10 ∧ 3 * Real.log 10 < 10 * Real.log 2 := by
  constructor
  · have h : Real.log ((2 : ℝ) ^ 13) < Real.log ((10 : ℝ) ^ 4) :=
      Real.log_lt_log (by positivity) (by norm_num)
    rw [Real.log_pow, Real.log_pow] at h
    push_cast at h
    exact h
  · have h : Real.log ((10 : ℝ) ^ 3) < Real.log ((2 : ℝ) ^ 10) :=
      Real.log_lt_log (by positivity) (by norm_num)
    rw [Real.log_pow, Real.log_pow] at h
    push_cast at h
    exact h

theorem sizing_ratio_bounds :
    9 * (Real.log 2) ^ 2 < 2 * Real.log 10 ∧ 2 * Real.log 10 < 10 * (Real.log 2) ^ 2 := by
  obtain ⟨h1, h2⟩ := log_ten_bounds
  have lo := Real.log_two_gt_d9
  have hi := Real.log_two_lt_d9
  constructor <;> nlinarith

/-- The bit count `estimateBounds` gives for `n` items at probability 0.01 lies
between `9 n` and `10 n`. -/
theorem estimateBounds_hundredth (n : Nat) :
    9 * n ≤ (estimateBounds n 0.01).1 ∧ (estimateBounds n 0.01).1 ≤ 10 * n := by
  obtain ⟨h1, h2⟩ := sizing_ratio_bounds
  have hpos : 0 < (Real.log 2) ^ 2 := by
    have := Real.log_two_gt_d9
    positivity
  have hn : (0 : ℝ) ≤ n := Nat.cast_nonneg n
  have hm : (-1 * (n : ℝ) * Real.log 0.01) / (Real.log 2) ^ 2
      = (n : ℝ) * (2 * Real.log 10) / (Real.log 2) ^ 2 := by
    rw [log_hundredth]; ring
  simp only [estimateBounds]
  rw [hm]
  constructor
  · apply Nat.le_floor
    rw [le_div_iff₀ hpos]
    push_cast
    nlinarith
  · have hle : (n : ℝ) * (2 * Real.log 10) / (Real.log 2) ^ 2 ≤ ((10 * n : ℕ) : ℝ) := by
      rw [div_le_iff₀ hpos]
      push_cast
      nlinarith
    exact Nat.floor_le_of_le hle

theorem estimateBounds_one_hundredth : (estimateBounds 1 0.01).1 = 9 := by
  obtain ⟨h1, h2⟩ := sizing_ratio_bounds
  have hpos : 0 < (Real.log 2) ^ 2 := by
    have := Real.log_two_gt_d9
    positivity
  have hm : (-1 * ((1 : ℕ) : ℝ) * Real.log 0.01) / (Real.log 2) ^ 2
      = (2 * Real.log 10) / (Real.log 2) ^ 2 := by
    rw [log_hundredth]; push_cast; ring
  simp only [estimateBounds]
  rw [hm, Nat.floor_eq_iff (by positivity)]
  constructor
  · rw [le_div_iff₀ hpos]; push_cast; linarith
  · rw [div_lt_iff₀ hpos]; push_cast; linarith

/-- With the sizing read over the reals, the max size of the filter
`Deserialize` returns is the bit count `estimateBounds` gives for `maxSize`
items at probability 0.01, whatever the text and the text layer; it lies
between `9 * maxSize` and `10 * maxSize`. -/
theorem Deserialize_GetMaxSize (T : TextLayer) (inputString : String) (maxSize : Nat) :
    (Deserialize T inputString maxSize).1.GetMaxSize = (estimateBounds maxSize 0.01).1 ∧
      9 * maxSize ≤ (Deserialize T inputString maxSize).1.GetMaxSize ∧
      (Deserialize T inputString maxSize).1.GetMaxSize ≤ 10 * maxSize :=
  ⟨rfl, estimateBounds_hundredth maxSize⟩

/-- C7: the code at `Deserialize(s, 1)`.  The argument `maxSize` is passed to
`NewByFailRate` as the item count, so the call returns, with a nil error, a
filter whose `GetMaxSize()` is 9, the bit count for one item at probability
0.01, and not the max size 1 it was told. -/
theorem Deserialize_maxSize_one :
    (Deserialize blankText "" 1).2 = none ∧
      (Deserialize blankText "" 1).1.GetMaxSize = 9 ∧
      (Deserialize blankText "" 1).1.GetMaxSize ≠ 1 := by
  have h : (Deserialize blankText "" 1).1.GetMaxSize = 9 := estimateBounds_one_hundredth
  refine ⟨rfl, h, ?_⟩
  rw [h]
  decide

/-- C1, at the filter `NewSimpleBF(8, 3)` and the key `hi`. -/
theorem AddKey_then_HasKey_witness :
    1 ≤ (NewSimpleBF 8 3).GetMaxSize ∧ (NewSimpleBF 8 3).WellFormed ∧
      ∃ bf1 idx, (NewSimpleBF 8 3).AddKey goHashers [104, 105] = some (bf1, true, idx) ∧
        bf1.HasKey goHashers [104, 105] = some (true, idx) :=
  ⟨by decide, by decide,
    AddKey_then_HasKey goHashers (NewSimpleBF 8 3) [104, 105] (by decide) (by decide)⟩

/-- C8, at the filter `filterHi`, the key `hi` whose index vector is
`[4, 2, 0]`, and a run of three further keys. -/
theorem HasKey_after_AddKeys_witness :
    1 ≤ filterHi.GetMaxSize ∧ filterHi.WellFormed ∧
      filterHi.HasKey goHashers [104, 105] = some (true, [4, 2, 0]) ∧
      ∃ bf1, AddKeys goHashers filterHi [[1], [], [119, 111]] = some bf1 ∧
        bf1.HasKey goHashers [104, 105] = some (true, [4, 2, 0]) :=
  ⟨by decide, by decide, by decide,
    HasKey_after_AddKeys goHashers [[1], [], [119, 111]] filterHi [104, 105] [4, 2, 0]
      (by decide) (by decide) (by decide)⟩

/-- C9, at the filter `NewSimpleBF(8, 3)` and the key `hi`. -/
theorem AddKey_idempotent_witness :
    1 ≤ (NewSimpleBF 8 3).GetMaxSize ∧ (NewSimpleBF 8 3).WellFormed ∧
      ∃ bf1 idx, (NewSimpleBF 8 3).AddKey goHashers [104, 105] = some (bf1, true, idx) ∧
        bf1.AddKey goHashers [104, 105] = some (bf1, true, idx) ∧
        (NewSimpleBF 8 3).HashKey goHashers [104, 105] = some idx :=
  ⟨by decide, by decide,
    AddKey_idempotent goHashers (NewSimpleBF 8 3) [104, 105] (by decide) (by decide)⟩

/-- C10, at the filter `filterFour` and the key `hi`, one of whose indices is
set and two are not. -/
theorem HasKey_decides_by_bits_witness :
    1 ≤ filterFour.GetMaxSize ∧ filterFour.WellFormed ∧
      ∃ idx, filterFour.HashKey goHashers [104, 105] = some idx ∧
        ((∀ i ∈ idx, filterFour.filter.Contains i = some true) →
          filterFour.HasKey goHashers [104, 105] = some (true, idx)) ∧
        (¬ (∀ i ∈ idx, filterFour.filter.Contains i = some true) →
          filterFour.HasKey goHashers [104, 105] = some (false, [])) ∧
        ((∃ r, filterFour.HasKey goHashers [104, 105] = some (true, r)) ↔
          ∀ i ∈ idx, filterFour.filter.Contains i = some true) :=
  ⟨by decide, by decide,
    HasKey_decides_by_bits goHashers filterFour [104, 105] (by decide) (by decide)⟩

end Bloomfilter

namespace Bfsearch

open Bloomfilter

/-- C2: peer-index correctness.  For a snapshot whose first entry is present
and whose present peers all carry a filter of max size `m`, `NewSearch` returns
a Search and `Get(i)` on it, for `i < m`, returns exactly the present peers of
the snapshot whose filter storage has bit `i` set, in snapshot order. -/
theorem Get_NewSearch_eq_peersWithBit (P : PeerList) (m i : Nat)
    (hfirst : ∃ first, P.Peers.head? = some (some first))
    (hbf : ∀ p, some p ∈ P.Peers → ∃ bf, p.BloomFilter = some bf ∧ bf.GetMaxSize = m)
    (hi : i < m) :
    ∃ b, NewSearch P = some b ∧ b.Get i = some (peersWithBit P.Peers i) := by
  obtain ⟨first, hfirst⟩ := hfirst
  obtain ⟨peers⟩ := P
  cases peers with
  | nil => simp at hfirst
  | cons entry rest =>
    have he : entry = some first := by simpa using hfirst
    subst he
    obtain ⟨bf0, h0, hm0⟩ := hbf first (List.mem_cons_self _ _)
    have hbf1 : ∀ p, some p ∈ some first :: rest → ∃ bf, p.BloomFilter = some bf := by
      intro p hp
      obtain ⟨bf, h, _⟩ := hbf p hp
      exact ⟨bf, h⟩
    refine ⟨_, calculateSearchArray_eq first rest bf0 h0 hbf1, ?_⟩
    have hlt : i < bf0.GetMaxSize + 1 := by omega
    have hgt : ¬ i > bf0.GetMaxSize + 1 := by omega
    simp [Search.Get, hgt, List.getElem?_map, List.getElem?_range hlt]

/-- C2, at the snapshot of `peerA`, an absent entry, `peerB` and `peerC`, all
of max size 2, and bit 1. -/
theorem Get_NewSearch_eq_peersWithBit_witness :
    (∃ first, (PeerList.mk [some peerA, none, some peerB, some peerC]).Peers.head?
        = some (some first)) ∧
      (∀ p, some p ∈ (PeerList.mk [some peerA, none, some peerB, some peerC]).Peers →
        ∃ bf, p.BloomFilter = some bf ∧ bf.GetMaxSize = 2) ∧
      1 < 2 ∧
      ∃ b, NewSearch ⟨[some peerA, none, some peerB, some peerC]⟩ = some b ∧
        b.Get 1 = some (peersWithBit
          (PeerList.mk [some peerA, none, some peerB, some peerC]).Peers 1) :=
  have h1 : ∃ first, (PeerList.mk [some peerA, none, some peerB, some peerC]).Peers.head?
      = some (some first) := ⟨peerA, rfl⟩
  have h2 : ∀ p, some p ∈ (PeerList.mk [some peerA, none, some peerB, some peerC]).Peers →
      ∃ bf, p.BloomFilter = some bf ∧ bf.GetMaxSize = 2 := by
    intro p hp
    simp only [List.mem_cons, Option.some.injEq, List.mem_singleton] at hp
    rcases hp with rfl | hp | rfl | rfl | hp
    · exact ⟨_, rfl, rfl⟩
    · cases hp
    · exact ⟨_, rfl, rfl⟩
    · exact ⟨_, rfl, rfl⟩
    · simp at hp
  ⟨h1, h2, by decide,
    Get_NewSearch_eq_peersWithBit ⟨[some peerA, none, some peerB, some peerC]⟩ 2 1 h1 h2
      (by decide)⟩

/-- Whatever the Search, `Get` at the position one past its last node reaches
the index expression and fails. -/
theorem Get_at_length (b : Search) : b.Get b.nodes.length = none := by
  simp [Search.Get]

/-- C3: the code at the boundary index.  The Search built from a snapshot whose
first entry is absent has no entries and `Get(0)` on it fails at the index
expression; the Search built from the one-peer snapshot of `peerA` has the
entries 0, 1, 2 and `Get(3)` on it fails the same way. -/
theorem Get_boundary_fails :
    NewSearch ⟨[none]⟩ = some ⟨[]⟩ ∧ (Search.mk []).Get 0 = none ∧
      (NewSearch ⟨[some peerA]⟩).isSome = true ∧
      (NewSearch ⟨[some peerA]⟩).bind (fun b => b.Get 3) = none := by
  decide

/-- C4: the code at the empty snapshot.  `NewSearch` on a peer list with zero
entries fails at the index expression `Peers[0]` of the guard, while on a peer
list whose first entry is absent it returns a Search with no entries. -/
theorem NewSearch_empty_fails :
    NewSearch ⟨[]⟩ = none ∧ NewSearch ⟨[none]⟩ = some ⟨[]⟩ := by
  decide

/-- Whenever the build inside `Recalculate` returns, the Search the caller
holds is the one it held before the call. -/
theorem Recalculate_keeps (b : Search) (P : PeerList) (n : Search)
    (h : calculateSearchArray P = some n) : b.Recalculate P = some b := by
  simp [Search.Recalculate, h]

/-- C5: the code at a Search built from `peerA` and recalculated with the
snapshot of `peerB`.  After the call the Search is unchanged and `Get(0)` on it
still returns `peerA`, while on the Search freshly built from the snapshot of
`peerB` the lookup `Get(0)` returns no peer. -/
theorem Recalculate_does_not_replace :
    ∃ b, NewSearch ⟨[some peerA]⟩ = some b ∧
      b.Recalculate ⟨[some peerB]⟩ = some b ∧
      b.Get 0 = some [peerA] ∧
      (NewSearch ⟨[some peerB]⟩).bind (fun n => n.Get 0) = some [] :=
  ⟨⟨[some ⟨0, [peerA]⟩, some ⟨1, []⟩, some ⟨2, []⟩]⟩, by decide, by decide, by decide,
    by decide⟩

end Bfsearch

namespace Bloomfilter

theorem indexVector_length (H : Hashers) (bf : SimpleBloomFilter) (key : Bytes) :
    (indexVector H bf key).length = bf.HashFunctions := by
  unfold indexVector
  rw [List.length_map, List.length_range]

theorem indexVector_getElem? (H : Hashers) (bf : SimpleBloomFilter) (key : Bytes)
    (i : Nat) (hi : i < bf.HashFunctions) :
    (indexVector H bf key)[i]? = some (calculateHash H key (i : Int) % bf.GetMaxSize) := by
  unfold indexVector
  rw [List.getElem?_map, List.getElem?_range hi]
  rfl

theorem indexVector_lt_maxSize (H : Hashers) (bf : SimpleBloomFilter) (key : Bytes)
    (hm : 1 ≤ bf.GetMaxSize) : ∀ j ∈ indexVector H bf key, j < bf.GetMaxSize := by
  intro j hj
  simp only [indexVector, List.mem_map] at hj
  obtain ⟨a, _, rfl⟩ := hj
  exact Nat.mod_lt _ hm

/-- C11: hash fan-out shape and range.  With max size `m ≥ 1` and hash count
`k`, `HashKey` returns a sequence of exactly `k` indices whose `i`-th element is
`calculateHash(key, i) mod m`, each below `m`; on a filter whose bit vector has
`m` bits, `HasKey` and `AddKey` therefore return without a bounds error and the
indices they return are below `m`. -/
theorem HashKey_shape_and_range (H : Hashers) (bf : SimpleBloomFilter) (key : Bytes)
    (hm : 1 ≤ bf.GetMaxSize) :
    ∃ idx, bf.HashKey H key = some idx ∧ idx.length = bf.HashFunctions ∧
      (∀ i, i < bf.HashFunctions →
        idx[i]? = some (calculateHash H key (i : Int) % bf.GetMaxSize)) ∧
      (∀ j ∈ idx, j < bf.GetMaxSize) ∧
      (bf.WellFormed → ∃ found added, bf.HasKey H key = some found ∧
        bf.AddKey H key = some added ∧
        (∀ j ∈ found.2, j < bf.GetMaxSize) ∧ ∀ j ∈ added.2.2, j < bf.GetMaxSize) := by
  refine ⟨indexVector H bf key, HashKey_eq H bf key hm, indexVector_length H bf key,
    indexVector_getElem? H bf key, indexVector_lt_maxSize H bf key hm, ?_⟩
  intro hwf
  obtain ⟨b1, _, _, _, h4⟩ := AddKey_eq H bf key hm hwf
  refine ⟨_, _, HasKey_eq H bf key hm hwf, h4, ?_, indexVector_lt_maxSize H bf key hm⟩
  intro j hj
  by_cases hall : (indexVector H bf key).all (fun i => bf.filter.IsSet i) = true
  · rw [if_pos hall] at hj
    exact indexVector_lt_maxSize H bf key hm j hj
  · rw [if_neg hall] at hj
    simp at hj

/-- C11, at the filter `filterFour` and the key `hi`. -/
theorem HashKey_shape_and_range_witness :
    1 ≤ filterFour.GetMaxSize ∧ filterFour.WellFormed ∧
      ∃ idx, filterFour.HashKey goHashers [104, 105] = some idx ∧
        idx.length = filterFour.HashFunctions ∧
        (∀ i, i < filterFour.HashFunctions →
          idx[i]? = some (calculateHash goHashers [104, 105] (i : Int) % filterFour.GetMaxSize)) ∧
        (∀ j ∈ idx, j < filterFour.GetMaxSize) ∧
        (filterFour.WellFormed → ∃ found added,
          filterFour.HasKey goHashers [104, 105] = some found ∧
          filterFour.AddKey goHashers [104, 105] = some added ∧
          (∀ j ∈ found.2, j < filterFour.GetMaxSize) ∧
          ∀ j ∈ added.2.2, j < filterFour.GetMaxSize) :=
  ⟨by decide, by decide, HashKey_shape_and_range goHashers filterFour [104, 105] (by decide)⟩

/-- C17: index vectors depend only on the max size, the hash count and the key.
Two filters with the same max size `m ≥ 1` and the same hash count return the
same index vector from `HashKey`, whatever bits each has set. -/
theorem HashKey_same_parameters (H : Hashers) (bf1 bf2 : SimpleBloomFilter) (key : Bytes)
    (hm : 1 ≤ bf1.GetMaxSize) (hsize : bf1.GetMaxSize = bf2.GetMaxSize)
    (hk : bf1.HashFunctions = bf2.HashFunctions) :
    ∃ idx, bf1.HashKey H key = some idx ∧ bf2.HashKey H key = some idx := by
  have hm2 : 1 ≤ bf2.GetMaxSize := by rw [← hsize]; exact hm
  refine ⟨indexVector H bf1 key, HashKey_eq H bf1 key hm, ?_⟩
  rw [HashKey_eq H bf2 key hm2]
  simp [indexVector, hsize, hk]

/-- C17, at the filters `filterHi` and `filterFour`, which differ in their bits
only, and the key `hi`. -/
theorem HashKey_same_parameters_witness :
    1 ≤ filterHi.GetMaxSize ∧ filterHi.GetMaxSize = filterFour.GetMaxSize ∧
      filterHi.HashFunctions = filterFour.HashFunctions ∧
      ∃ idx, filterHi.HashKey goHashers [104, 105] = some idx ∧
        filterFour.HashKey goHashers [104, 105] = some idx :=
  ⟨by decide, by decide, by decide,
    HashKey_same_parameters goHashers filterHi filterFour [104, 105]
      (by decide) (by decide) (by decide)⟩

/-- C20: hash family fallback.  Every offset `i ≥ 3` takes the default branch of
`calculateHash`, the FNV sum, as offset 0 does; so on a filter with more than
three hash functions and max size at least 1 every element of `HashKey` at a
position `j ≥ 3` equals the element at position 0. -/
theorem calculateHash_fallback (H : Hashers) (key : Bytes) (i : Int) (hi : 3 ≤ i)
    (bf : SimpleBloomFilter) (hm : 1 ≤ bf.GetMaxSize) (hk : 3 < bf.HashFunctions) :
    calculateHash H key i = calculateHash H key 0 ∧
      calculateHash H key 0 = H.fnv32 key % 2 ^ 32 ∧
      ∃ idx, bf.HashKey H key = some idx ∧
        ∀ j, 3 ≤ j → j < bf.HashFunctions → idx[j]? = idx[0]? := by
  have hoff : ∀ o : Int, 3 ≤ o → calculateHash H key o = H.fnv32 key % 2 ^ 32 := by
    intro o ho
    have h1 : ¬ o = 1 := by omega
    have h2 : ¬ o = 2 := by omega
    simp [calculateHash, h1, h2]
  have h0 : calculateHash H key 0 = H.fnv32 key % 2 ^ 32 := by
    simp [calculateHash]
  refine ⟨by rw [hoff i hi, h0], h0, indexVector H bf key, HashKey_eq H bf key hm, ?_⟩
  intro j hj hjk
  rw [indexVector_getElem? H bf key j hjk, indexVector_getElem? H bf key 0 (by omega)]
  have hj3 : (3 : Int) ≤ (j : Int) := by exact_mod_cast hj
  rw [hoff (j : Int) hj3]
  simp [h0]

/-- C20, at offset 7, the five-hash filter `NewSimpleBF(8, 5)` and the key
`hi`. -/
theorem calculateHash_fallback_witness :
    (3 : Int) ≤ 7 ∧ 1 ≤ (NewSimpleBF 8 5).GetMaxSize ∧ 3 < (NewSimpleBF 8 5).HashFunctions ∧
      calculateHash goHashers [104, 105] 7 = calculateHash goHashers [104, 105] 0 ∧
      calculateHash goHashers [104, 105] 0 = goHashers.fnv32 [104, 105] % 2 ^ 32 ∧
      ∃ idx, (NewSimpleBF 8 5).HashKey goHashers [104, 105] = some idx ∧
        ∀ j, 3 ≤ j → j < (NewSimpleBF 8 5).HashFunctions → idx[j]? = idx[0]? :=
  ⟨by decide, by decide, by decide,
    calculateHash_fallback goHashers [104, 105] 7 (by decide) (NewSimpleBF 8 5)
      (by decide) (by decide)⟩

end Bloomfilter

namespace Bloomfilter

theorem NewWFBitset_IsSet (m j : Nat) : (NewWFBitset m).IsSet j = false := by
  simp only [NewWFBitset, Bitset.IsSet, List.getD_eq_getElem?_getD, List.getElem?_replicate]
  split <;> rfl

theorem NewSimpleBF_WellFormed (m k : Nat) : (NewSimpleBF m k).WellFormed := by
  simp [SimpleBloomFilter.WellFormed, NewSimpleBF, NewWFBitset]

/-- C12, as stated, fails at `NewSimpleBF(8, 0)`.  With no hash function the
loop of `HasKey` has nothing to test and the fresh filter answers true. -/
theorem fresh_HasKey_true_without_hashes :
    (NewSimpleBF 8 0).HasKey goHashers [104, 105] = some (true, []) ∧
      (NewSimpleBF 8 0).filter = NewWFBitset 8 := by
  decide

/-- C12, as amended: on a filter freshly built by `NewSimpleBF(m, k)`, or by
`NewByFailRate(n, p)` when the sizing gives `(m, k)`, with `m ≥ 1` and at least
one hash function, `HasKey` returns false, with no indices, for every key. -/
theorem fresh_HasKey_false (H : Hashers) (key : Bytes) (m k : Nat)
    (hm : 1 ≤ m) (hk : 1 ≤ k) :
    (NewSimpleBF m k).HasKey H key = some (false, []) ∧
      ∀ n p, estimateBounds n p = (m, k) →
        (NewByFailRate n p).HasKey H key = some (false, []) := by
  have hfresh : (NewSimpleBF m k).HasKey H key = some (false, []) := by
    have hm1 : 1 ≤ (NewSimpleBF m k).GetMaxSize := hm
    rw [HasKey_eq H _ key hm1 (NewSimpleBF_WellFormed m k)]
    have hne : ¬ (indexVector H (NewSimpleBF m k) key).all
        (fun i => (NewSimpleBF m k).filter.IsSet i) = true := by
      intro hall
      rw [List.all_eq_true] at hall
      have h0 := indexVector_getElem? H (NewSimpleBF m k) key 0 hk
      have hmem := List.getElem?_mem h0
      have := hall _ hmem
      rw [show (NewSimpleBF m k).filter = NewWFBitset m from rfl, NewWFBitset_IsSet] at this
      cases this
    rw [if_neg hne]
  refine ⟨hfresh, ?_⟩
  intro n p hnp
  have : NewByFailRate n p = NewSimpleBF m k := by
    simp [NewByFailRate, hnp]
  rw [this]
  exact hfresh

/-- C12 as amended, at `NewSimpleBF(8, 3)` and the key `hi`. -/
theorem fresh_HasKey_false_witness :
    1 ≤ 8 ∧ 1 ≤ 3 ∧
      (NewSimpleBF 8 3).HasKey goHashers [104, 105] = some (false, []) ∧
      ∀ n p, estimateBounds n p = (8, 3) →
        (NewByFailRate n p).HasKey goHashers [104, 105] = some (false, []) :=
  ⟨by decide, by decide, fresh_HasKey_false goHashers [104, 105] 8 3 (by decide) (by decide)⟩

theorem count_true_mono (l1 : List Bool) : ∀ l2 : List Bool, l1.length = l2.length →
    (∀ j, l1.getD j false = true → l2.getD j false = true) →
    l1.count true ≤ l2.count true := by
  induction l1 with
  | nil => intro l2 _ _; simp
  | cons a rest ih =>
    intro l2 hlen hsub
    cases l2 with
    | nil => simp at hlen
    | cons c rest2 =>
      have hlen1 : rest.length = rest2.length := by simpa using hlen
      have hrest := ih rest2 hlen1 (fun j hj => by simpa using hsub (j + 1) (by simpa using hj))
      have h0 : a = true → c = true := by simpa using hsub 0
      cases a <;> cases c <;> simp_all [List.count_cons]
      omega

theorem AddKeys_append (H : Hashers) (ks1 ks2 : List Bytes) :
    ∀ bf, AddKeys H bf (ks1 ++ ks2) = (AddKeys H bf ks1).bind (fun mid => AddKeys H mid ks2) := by
  induction ks1 with
  | nil => intro bf; rfl
  | cons k rest ih =>
    intro bf
    simp only [List.cons_append, AddKeys]
    cases bf.AddKey H k with
    | none => rfl
    | some r => exact ih r.1

theorem AddKeys_preserves (H : Hashers) (keys : List Bytes) :
    ∀ bf : SimpleBloomFilter, 1 ≤ bf.GetMaxSize → bf.WellFormed →
      ∃ bf1, AddKeys H bf keys = some bf1 ∧ bf1.maxSize = bf.maxSize ∧
        bf1.HashFunctions = bf.HashFunctions ∧ bf1.WellFormed ∧
        ∀ j, bf.filter.IsSet j = true → bf1.filter.IsSet j = true := by
  induction keys with
  | nil => intro bf _ hwf; exact ⟨bf, rfl, rfl, rfl, hwf, fun _ h => h⟩
  | cons k rest ih =>
    intro bf hm hwf
    obtain ⟨bf1, idx1, ha, hms, hk, hwf1, hmono⟩ := AddKey_preserves H bf k hm hwf
    have hm1 : 1 ≤ bf1.GetMaxSize := by
      show 1 ≤ bf1.maxSize
      rw [hms]; exact hm
    obtain ⟨bf2, hr, hms2, hk2, hwf2, hmono2⟩ := ih bf1 hm1 hwf1
    exact ⟨bf2, by simp [AddKeys, ha, hr], by rw [hms2, hms], by rw [hk2, hk], hwf2,
      fun j hj => hmono2 j (hmono j hj)⟩

/-- C16: monotone bits.  On a filter with max size at least 1, whose bit
vector has max-size bits, every run of `AddKey` calls returns, and between any
two points of the run (after the keys `ks1`, and after the further keys `ks2`)
no set bit is cleared and the number of set bits does not decrease. -/
theorem AddKeys_bits_monotone (H : Hashers) (bf : SimpleBloomFilter) (ks1 ks2 : List Bytes)
    (hm : 1 ≤ bf.GetMaxSize) (hwf : bf.WellFormed) :
    ∃ mid fin, AddKeys H bf ks1 = some mid ∧ AddKeys H bf (ks1 ++ ks2) = some fin ∧
      (∀ j, mid.filter.IsSet j = true → fin.filter.IsSet j = true) ∧
      mid.filter.setCount ≤ fin.filter.setCount := by
  obtain ⟨mid, h1, hms, _, hwf1, _⟩ := AddKeys_preserves H ks1 bf hm hwf
  have hm1 : 1 ≤ mid.GetMaxSize := by
    show 1 ≤ mid.maxSize
    rw [hms]; exact hm
  obtain ⟨fin, h2, hms2, _, hwf2, hmono⟩ := AddKeys_preserves H ks2 mid hm1 hwf1
  refine ⟨mid, fin, h1, by rw [AddKeys_append, h1]; exact h2, hmono, ?_⟩
  apply count_true_mono
  · rw [hwf1, hwf2, hms2]
  · exact hmono

/-- C16, at `NewSimpleBF(8, 3)`, the key `hi` first and two further keys
after it. -/
theorem AddKeys_bits_monotone_witness :
    1 ≤ (NewSimpleBF 8 3).GetMaxSize ∧ (NewSimpleBF 8 3).WellFormed ∧
      ∃ mid fin, AddKeys goHashers (NewSimpleBF 8 3) [[104, 105]] = some mid ∧
        AddKeys goHashers (NewSimpleBF 8 3) ([[104, 105]] ++ [[1], [119, 111]]) = some fin ∧
        (∀ j, mid.filter.IsSet j = true → fin.filter.IsSet j = true) ∧
        mid.filter.setCount ≤ fin.filter.setCount :=
  ⟨by decide, by decide,
    AddKeys_bits_monotone goHashers (NewSimpleBF 8 3) [[104, 105]] [[1], [119, 111]]
      (by decide) (by decide)⟩

end Bloomfilter

namespace Bloomfilter

/-- The invariant of a run of calls: when every set bit of the filter is an
index of one of the keys `seen`, the run returns a filter with the same
parameters whose every set bit is an index of a key of `seen` or of a key the
run added. -/
theorem runCalls_invariant (H : Hashers) (calls : List Call) :
    ∀ (bf : SimpleBloomFilter) (seen : List Bytes), 1 ≤ bf.GetMaxSize → bf.WellFormed →
      (∀ j, bf.filter.IsSet j = true → ∃ key ∈ seen, j ∈ indexVector H bf key) →
      ∃ bf1, runCalls H bf calls = some bf1 ∧ bf1.maxSize = bf.maxSize ∧
        bf1.HashFunctions = bf.HashFunctions ∧ bf1.WellFormed ∧
        (addedKeys calls = [] → bf1 = bf) ∧
        ∀ j, bf1.filter.IsSet j = true →
          ∃ key ∈ seen ++ addedKeys calls, j ∈ indexVector H bf key := by
  induction calls with
  | nil =>
    intro bf seen _ hwf hinv
    exact ⟨bf, rfl, rfl, rfl, hwf, fun _ => rfl, by simpa [addedKeys] using hinv⟩
  | cons call rest ih =>
    intro bf seen hm hwf hinv
    cases call with
    | has key =>
      obtain ⟨bf1, hr, hms, hk, hwf1, hsame, hinv1⟩ := ih bf seen hm hwf hinv
      refine ⟨bf1, ?_, hms, hk, hwf1, hsame, hinv1⟩
      simp only [runCalls, HasKey_eq H bf key hm hwf]
      exact hr
    | add key =>
      obtain ⟨b1, _, h2, h3, h4⟩ := AddKey_eq H bf key hm hwf
      have hm1 : 1 ≤ (SimpleBloomFilter.mk bf.maxSize bf.HashFunctions b1).GetMaxSize := hm
      have hwf1 : (SimpleBloomFilter.mk bf.maxSize bf.HashFunctions b1).WellFormed := by
        show b1.bits.length = bf.maxSize
        rw [h2]; exact hwf
      have hinv1 : ∀ j, (SimpleBloomFilter.mk bf.maxSize bf.HashFunctions b1).filter.IsSet j
          = true → ∃ k ∈ seen ++ [key],
            j ∈ indexVector H (SimpleBloomFilter.mk bf.maxSize bf.HashFunctions b1) k := by
        intro j hj
        have hj1 : b1.IsSet j = true := hj
        rw [h3 j] at hj1
        simp only [Bool.or_eq_true, Bool.and_eq_true, decide_eq_true_eq] at hj1
        rcases hj1 with hold | ⟨hnew, _⟩
        · obtain ⟨k, hk, hjk⟩ := hinv j hold
          exact ⟨k, List.mem_append_left _ hk, hjk⟩
        · exact ⟨key, by simp, hnew⟩
      obtain ⟨bf1, hr, hms, hk, hwf2, _, hinv2⟩ := ih _ (seen ++ [key]) hm1 hwf1 hinv1
      refine ⟨bf1, ?_, hms, hk, hwf2, ?_, ?_⟩
      · simp only [runCalls, h4]
        exact hr
      · intro hnone
        simp [addedKeys] at hnone
      · intro j hj
        obtain ⟨k, hk, hjk⟩ := hinv2 j hj
        exact ⟨k, by simpa [addedKeys] using hk, hjk⟩

/-- C18: written bits come only from added keys.  Starting from a freshly built
filter with max size `m ≥ 1`, every run of `AddKey` and `HasKey` calls returns,
and every bit position set in the resulting bit vector belongs to the index
vector `HashKey` gives for one of the keys passed to `AddKey`; a run that adds
no key leaves the filter as it was. -/
theorem set_bits_from_added_keys (H : Hashers) (calls : List Call) (m k : Nat)
    (hm : 1 ≤ m) :
    ∃ bf1, runCalls H (NewSimpleBF m k) calls = some bf1 ∧
      (addedKeys calls = [] → bf1 = NewSimpleBF m k) ∧
      ∀ j, bf1.filter.IsSet j = true →
        ∃ key ∈ addedKeys calls, ∃ idx,
          (NewSimpleBF m k).HashKey H key = some idx ∧ j ∈ idx := by
  have hm1 : 1 ≤ (NewSimpleBF m k).GetMaxSize := hm
  obtain ⟨bf1, hr, _, _, _, hsame, hinv⟩ := runCalls_invariant H calls (NewSimpleBF m k) []
    hm1 (NewSimpleBF_WellFormed m k)
    (by
      intro j hj
      rw [show (NewSimpleBF m k).filter = NewWFBitset m from rfl, NewWFBitset_IsSet] at hj
      cases hj)
  refine ⟨bf1, hr, hsame, ?_⟩
  intro j hj
  obtain ⟨key, hkey, hjk⟩ := hinv j hj
  exact ⟨key, by simpa using hkey, indexVector H (NewSimpleBF m k) key,
    HashKey_eq H _ key hm1, hjk⟩

/-- C18, at `NewSimpleBF(8, 3)` and a run that tests `hi`, adds `hi`, tests
another key and adds a third. -/
theorem set_bits_from_added_keys_witness :
    1 ≤ 8 ∧
      ∃ bf1, runCalls goHashers (NewSimpleBF 8 3)
          [Call.has [104, 105], Call.add [104, 105], Call.has [1], Call.add [119, 111]]
            = some bf1 ∧
        (addedKeys [Call.has [104, 105], Call.add [104, 105], Call.has [1],
            Call.add [119, 111]] = [] → bf1 = NewSimpleBF 8 3) ∧
        ∀ j, bf1.filter.IsSet j = true →
          ∃ key ∈ addedKeys [Call.has [104, 105], Call.add [104, 105], Call.has [1],
              Call.add [119, 111]], ∃ idx,
            (NewSimpleBF 8 3).HashKey goHashers key = some idx ∧ j ∈ idx :=
  ⟨by decide,
    set_bits_from_added_keys goHashers
      [Call.has [104, 105], Call.add [104, 105], Call.has [1], Call.add [119, 111]] 8 3
      (by decide)⟩

end Bloomfilter

namespace Bloomfilter

theorem log_two_sq_pos : 0 < (Real.log 2) ^ 2 := by
  have := Real.log_two_gt_d9
  positivity

theorem estimateBounds_fst (n : Nat) (p : ℝ) :
    (estimateBounds n p).1 = Nat.floor (-(n : ℝ) * Real.log p / (Real.log 2) ^ 2) := by
  simp only [estimateBounds]
  congr 2
  ring

theorem sizing_quotient_nonneg (n : Nat) (p : ℝ) (hp0 : 0 < p) (hp1 : p < 1) :
    0 ≤ -(n : ℝ) * Real.log p / (Real.log 2) ^ 2 := by
  have hlog : Real.log p < 0 := Real.log_neg hp0 hp1
  have hn : (0 : ℝ) ≤ n := Nat.cast_nonneg n
  apply div_nonneg _ log_two_sq_pos.le
  nlinarith

/-- C13, as stated, fails at `n = 1`, `p = 0.01`: the quotient is about 9.585,
`estimateBounds` returns 9 bits and the ceiling is 10. -/
theorem estimateBounds_bits_not_ceiling :
    (estimateBounds 1 0.01).1 = 9 ∧ specBitCount 1 0.01 = 10 ∧
      (estimateBounds 1 0.01).1 ≠ specBitCount 1 0.01 := by
  obtain ⟨h1, h2⟩ := sizing_ratio_bounds
  have hpos := log_two_sq_pos
  have hc : specBitCount 1 0.01 = 10 := by
    have hx : -((1 : ℕ) : ℝ) * Real.log 0.01 / (Real.log 2) ^ 2
        = (2 * Real.log 10) / (Real.log 2) ^ 2 := by
      rw [log_hundredth]; push_cast; ring
    simp only [specBitCount]
    rw [hx, Nat.ceil_eq_iff (by decide)]
    constructor
    · rw [lt_div_iff₀ hpos]; push_cast; linarith
    · rw [div_le_iff₀ hpos]; push_cast; linarith
  refine ⟨estimateBounds_one_hundredth, hc, ?_⟩
  rw [estimateBounds_one_hundredth, hc]
  decide

/-- C13, as amended: for `n ≥ 1` and `0 < p < 1` the bit count `estimateBounds`
returns is the quotient `−n · ln p / (ln 2)²` with its fraction dropped (the
floor): it is at most the quotient and more than the quotient less one, so it
is the ceiling only when the quotient is whole and one below it otherwise. -/
theorem estimateBounds_bits_floor (n : Nat) (p : ℝ) (hn : 1 ≤ n) (hp0 : 0 < p)
    (hp1 : p < 1) :
    (estimateBounds n p).1 = Nat.floor (-(n : ℝ) * Real.log p / (Real.log 2) ^ 2) ∧
      ((estimateBounds n p).1 : ℝ) ≤ -(n : ℝ) * Real.log p / (Real.log 2) ^ 2 ∧
      -(n : ℝ) * Real.log p / (Real.log 2) ^ 2 < ((estimateBounds n p).1 : ℝ) + 1 ∧
      (estimateBounds n p).1 ≤ specBitCount n p ∧
      specBitCount n p ≤ (estimateBounds n p).1 + 1 := by
  have _hn := hn
  rw [estimateBounds_fst]
  exact ⟨rfl, Nat.floor_le (sizing_quotient_nonneg n p hp0 hp1), Nat.lt_floor_add_one _,
    Nat.floor_le_ceil _, Nat.ceil_le_floor_add_one _⟩

/-- C13 as amended, at `n = 1`, `p = 0.01`. -/
theorem estimateBounds_bits_floor_witness :
    1 ≤ 1 ∧ (0 : ℝ) < 0.01 ∧ (0.01 : ℝ) < 1 ∧
      (estimateBounds 1 0.01).1
        = Nat.floor (-((1 : ℕ) : ℝ) * Real.log 0.01 / (Real.log 2) ^ 2) ∧
      ((estimateBounds 1 0.01).1 : ℝ) ≤ -((1 : ℕ) : ℝ) * Real.log 0.01 / (Real.log 2) ^ 2 ∧
      -((1 : ℕ) : ℝ) * Real.log 0.01 / (Real.log 2) ^ 2
        < ((estimateBounds 1 0.01).1 : ℝ) + 1 ∧
      (estimateBounds 1 0.01).1 ≤ specBitCount 1 0.01 ∧
      specBitCount 1 0.01 ≤ (estimateBounds 1 0.01).1 + 1 :=
  ⟨le_refl 1, by norm_num, by norm_num,
    estimateBounds_bits_floor 1 0.01 (le_refl 1) (by norm_num) (by norm_num)⟩

/-- C15: sizing monotonicity.  For fixed `n ≥ 1` and `0 < p2 ≤ p1 < 1` the bit
count `estimateBounds` returns for `p2` is at least the one it returns for
`p1`. -/
theorem estimateBounds_bits_antitone (n : Nat) (p1 p2 : ℝ) (hn : 1 ≤ n) (hp2 : 0 < p2)
    (h21 : p2 ≤ p1) (hp1 : p1 < 1) :
    (estimateBounds n p1).1 ≤ (estimateBounds n p2).1 := by
  have _hn := hn
  have _hp1 := hp1
  have hlog : Real.log p2 ≤ Real.log p1 := Real.log_le_log hp2 h21
  have hn0 : (0 : ℝ) ≤ n := Nat.cast_nonneg n
  rw [estimateBounds_fst, estimateBounds_fst]
  apply Nat.floor_mono
  apply div_le_div_of_nonneg_right _ log_two_sq_pos.le
  nlinarith

/-- C15, at `n = 1`, `p1 = 0.5` and `p2 = 0.01`. -/
theorem estimateBounds_bits_antitone_witness :
    1 ≤ 1 ∧ (0 : ℝ) < 0.01 ∧ (0.01 : ℝ) ≤ 0.5 ∧ (0.5 : ℝ) < 1 ∧
      (estimateBounds 1 0.5).1 ≤ (estimateBounds 1 0.01).1 :=
  ⟨le_refl 1, by norm_num, by norm_num, by norm_num,
    estimateBounds_bits_antitone 1 0.5 0.01 (le_refl 1) (by norm_num) (by norm_num)
      (by norm_num)⟩

end Bloomfilter

namespace Bfsearch

open Bloomfilter

/-- C19, as stated, fails at the snapshot of `peerA`, which carries a filter of
max size 2, followed by a present peer without a filter: the inner loop calls
`GetStorage` through the nil filter and the build fails, where the claim has it
yield three entries. -/
theorem NewSearch_fails_on_missing_filter :
    (PeerList.mk [some peerA, some peerNoFilter]).Peers.head? = some (some peerA) ∧
      (peerA.BloomFilter.map SimpleBloomFilter.GetMaxSize) = some 2 ∧
      NewSearch ⟨[some peerA, some peerNoFilter]⟩ = none := by
  decide

/-- C19, as amended: shape of the built index.  For a snapshot whose first entry
is present and carries a filter of max size `m`, and whose other present
entries each carry a filter, `NewSearch` returns a Search with exactly `m + 1`
entries, the entry at each position `i ≤ m` holding bit index `i`; for a
snapshot whose first entry is absent it returns a Search with zero entries. -/
theorem NewSearch_shape (first : Peer) (bf0 : SimpleBloomFilter)
    (rest others : List (Option Peer)) (h0 : first.BloomFilter = some bf0)
    (hbf : ∀ p, some p ∈ rest → ∃ bf, p.BloomFilter = some bf) :
    (∃ b, NewSearch ⟨some first :: rest⟩ = some b ∧
        b.nodes.length = bf0.GetMaxSize + 1 ∧
        ∀ i, i ≤ bf0.GetMaxSize →
          ∃ node, b.nodes[i]? = some (some node) ∧ node.bitIndex = i) ∧
      NewSearch ⟨none :: others⟩ = some ⟨[]⟩ := by
  have hall : ∀ p, some p ∈ some first :: rest → ∃ bf, p.BloomFilter = some bf := by
    intro p hp
    rcases List.mem_cons.mp hp with h | h
    · have : p = first := Option.some.inj h
      exact ⟨bf0, by rw [this]; exact h0⟩
    · exact hbf p h
  refine ⟨⟨_, calculateSearchArray_eq first rest bf0 h0 hall, by simp, ?_⟩, ?_⟩
  · intro i hi
    have hlt : i < bf0.GetMaxSize + 1 := by omega
    exact ⟨⟨i, peersWithBit (some first :: rest) i⟩,
      by simp [List.getElem?_map, List.getElem?_range hlt], rfl⟩
  · simp [NewSearch, calculateSearchArray]

/-- C19 as amended, at the snapshot of `peerA`, an absent entry and `peerB`, and
at a snapshot that starts with an absent entry. -/
theorem NewSearch_shape_witness :
    peerA.BloomFilter = some ⟨2, 1, ⟨[true, false]⟩⟩ ∧
      (∀ p, some p ∈ [none, some peerB] → ∃ bf, p.BloomFilter = some bf) ∧
      (∃ b, NewSearch ⟨some peerA :: [none, some peerB]⟩ = some b ∧
        b.nodes.length = (SimpleBloomFilter.mk 2 1 ⟨[true, false]⟩).GetMaxSize + 1 ∧
        ∀ i, i ≤ (SimpleBloomFilter.mk 2 1 ⟨[true, false]⟩).GetMaxSize →
          ∃ node, b.nodes[i]? = some (some node) ∧ node.bitIndex = i) ∧
      NewSearch ⟨none :: [some peerA]⟩ = some ⟨[]⟩ :=
  have h2 : ∀ p, some p ∈ [none, some peerB] → ∃ bf, p.BloomFilter = some bf := by
    intro p hp
    simp only [List.mem_cons, Option.some.injEq, List.mem_singleton] at hp
    rcases hp with hp | rfl | hp
    · cases hp
    · exact ⟨_, rfl⟩
    · simp at hp
  ⟨rfl, h2, NewSearch_shape peerA ⟨2, 1, ⟨[true, false]⟩⟩ [none, some peerB] [some peerA]
    rfl h2⟩

end Bfsearch
